import Mathlib

/-!
Verification of the layout-and-state core of the React-D3-Tree `Tree`
component (src/src/Tree/index.js).

The embedding models the JS node objects handled by the component and the
operations `assignInternalProperties`, `findNodesById`, `collapseNode`,
`expandNode`, `handleNodeToggle`, `setInitialTreeDepth`, `generateTree` and
`calculateD3Geometry`.  Numbers that are JS floating-point configuration
values (node sizes, separation factors, zoom levels) are modelled as
rationals; the uuid.v4 identifier supply is modelled as a counter handing
out fresh natural numbers.
-/

namespace ReactD3Tree

/-- A tree node after internal-property assignment.  Mirrors the JS node
objects of Tree/index.js: the first field is `node.id` (uuid.v4 strings are
modelled by a fresh supply of naturals), the second is `node._collapsed`,
and the third is `node._children`, the full child list.  In the JS code
`node.children` and `node._children` alias the same array right after
`assignInternalProperties` and no core operation ever separates them, so a
single list stands for both; an absent child array is represented by `[]`
because every use site guards with a truthiness-and-length check
(`node._children && node._children.length > 0`), which treats absent and
empty child arrays identically. -/
inductive TNode : Type where
  | mk (nodeId : Nat) (coll : Bool) (childs : List TNode) : TNode

/-- The `node.id` field. -/
def TNode.id : TNode → Nat
  | .mk i _ _ => i

/-- The `node._collapsed` field. -/
def TNode.collapsed : TNode → Bool
  | .mk _ c _ => c

/-- The `node._children` field (full child list). -/
def TNode.children : TNode → List TNode
  | .mk _ _ ch => ch

theorem TNode.eta (n : TNode) : TNode.mk n.id n.collapsed n.children = n := by
  cases n
  rfl

mutual
def TNode.decEq : (a b : TNode) → Decidable (a = b)
  | .mk i1 c1 ch1, .mk i2 c2 ch2 =>
    match Nat.decEq i1 i2 with
    | isFalse h1 => isFalse (fun h => by injection h; contradiction)
    | isTrue h1 =>
      match Bool.decEq c1 c2 with
      | isFalse h2 => isFalse (fun h => by injection h; contradiction)
      | isTrue h2 =>
        match TNode.decEqList ch1 ch2 with
        | isFalse h3 => isFalse (fun h => by injection h; contradiction)
        | isTrue h3 => isTrue (by rw [h1, h2, h3])
def TNode.decEqList : (as bs : List TNode) → Decidable (as = bs)
  | [], [] => isTrue rfl
  | _ :: _, [] => isFalse (fun h => by injection h)
  | [], _ :: _ => isFalse (fun h => by injection h)
  | a :: as, b :: bs =>
    match TNode.decEq a b with
    | isFalse h1 => isFalse (fun h => by injection h; contradiction)
    | isTrue h1 =>
      match TNode.decEqList as bs with
      | isFalse h2 => isFalse (fun h => by injection h; contradiction)
      | isTrue h2 => isTrue (by rw [h1, h2])
end

instance : DecidableEq TNode := TNode.decEq

theorem TNode.sizeOf_children_lt (n : TNode) : sizeOf n.children < sizeOf n := by
  cases n with
  | mk i c ch => simp [TNode.children]

mutual
/-- All nodes of a tree: the node itself followed by every node of its full
child list, in preorder. -/
def TNode.allNodes : TNode → List TNode
  | .mk i c ch => .mk i c ch :: allNodesForest ch
/-- All nodes of a forest, in preorder. -/
def allNodesForest : List TNode → List TNode
  | [] => []
  | n :: ns => n.allNodes ++ allNodesForest ns
end

/-- The identifiers of every node of a forest, in preorder. -/
def allIds (ns : List TNode) : List Nat :=
  (allNodesForest ns).map TNode.id

/-- Raw input data before property assignment: only the (optional, possibly
empty) child array matters to the core; user-data fields (`name`,
`attributes`) are carried through untouched by the JS code and omitted
here. -/
inductive RawNode : Type where
  | mk (childs : List RawNode) : RawNode

/-- The raw child list (absent and empty arrays are identified, matching the
JS guard `node.children && node.children.length > 0`). -/
def RawNode.children : RawNode → List RawNode
  | .mk ch => ch

mutual
/-- `assignInternalProperties` (Tree/index.js lines 138-149): maps over the
raw data array; each node receives a fresh identifier (`node.id = uuid.v4()`,
modelled by the counter), `_collapsed = false`, and, when a non-empty child
array exists, the recursively assigned children, to which `_children` is then
set (`node._children = node.children`, an alias captured by the single
`children` list of `TNode`).  A childless raw node keeps its (empty) child
list.  The counter is threaded so every generated identifier is fresh. -/
def assignInternalProperties : List RawNode → Nat → List TNode × Nat
  | [], c => ([], c)
  | r :: rs, c =>
    let p := assignNode r c
    let q := assignInternalProperties rs p.2
    (p.1 :: q.1, q.2)
/-- One step of `assignInternalProperties` on a single raw node: id first,
then the recursion into the children. -/
def assignNode : RawNode → Nat → TNode × Nat
  | .mk ch, c =>
    let q := assignInternalProperties ch (c + 1)
    (.mk c false q.1, q.2)
end

mutual
/-- Model of `collapseNode` (Tree/index.js lines 187-194): sets
`_collapsed = true` on the node and recurses through the full child list
`_children` (the JS guard on a non-empty child array is the identity on an
empty list). -/
def collapseNode : TNode → TNode
  | .mk i _ ch => .mk i true (collapseForest ch)
/-- The `node._children.forEach(child => this.collapseNode(child))` loop. -/
def collapseForest : List TNode → List TNode
  | [] => []
  | n :: ns => collapseNode n :: collapseForest ns
end

/-- Model of `expandNode` (Tree/index.js lines 204-206): sets
`_collapsed = false` on the node itself only. -/
def expandNode : TNode → TNode
  | .mk i _ ch => .mk i false ch

mutual
/-- Model of `findNodesById` (Tree/index.js lines 161-177): returns the
accumulator unchanged as soon as it is non-empty; otherwise first
concatenates every identifier match of the current `nodeSet`, then walks the
set descending into each node's full child list `_children`. -/
def findNodesById (nodeId : Nat) (nodeSet : List TNode) (hits : List TNode) :
    List TNode :=
  if hits.length > 0 then hits
  else findDescend nodeId nodeSet (hits ++ nodeSet.filter (fun n => n.id == nodeId))
termination_by (sizeOf nodeSet, 1)
/-- The `nodeSet.forEach` loop of `findNodesById`, descending into the
children of each node in order. -/
def findDescend (nodeId : Nat) (nodeSet : List TNode) (hits : List TNode) :
    List TNode :=
  match nodeSet with
  | [] => hits
  | n :: rest =>
      findDescend nodeId rest
        (if n.children.length > 0 then findNodesById nodeId n.children hits else hits)
termination_by (sizeOf nodeSet, 0)
decreasing_by
  · apply Prod.Lex.left
    have h := TNode.sizeOf_children_lt n
    simp only [List.cons.sizeOf_spec] at h ⊢
    omega
  · apply Prod.Lex.left
    simp only [List.cons.sizeOf_spec]
    omega
end

mutual
/-- Erases every `_collapsed` flag of a tree (sets all of them to `false`),
keeping identifiers and the child structure; equality of erased trees states
that an operation touched nothing but flags. -/
def eraseFlags : TNode → TNode
  | .mk i _ ch => .mk i false (eraseForest ch)
/-- Erases every flag of a forest. -/
def eraseForest : List TNode → List TNode
  | [] => []
  | n :: ns => eraseFlags n :: eraseForest ns
end

theorem allNodes_cons (n : TNode) : n.allNodes = n :: allNodesForest n.children := by
  cases n
  rfl

theorem allNodesForest_cons (n : TNode) (ns : List TNode) :
    allNodesForest (n :: ns) = n.allNodes ++ allNodesForest ns := rfl

theorem self_mem_allNodes (n : TNode) : n ∈ n.allNodes := by
  rw [allNodes_cons]
  exact List.mem_cons_self ..

mutual
theorem collapseNode_all_collapsed (n : TNode) :
    ∀ m ∈ (collapseNode n).allNodes, m.collapsed = true := by
  cases n with
  | mk i c ch =>
    intro m hm
    simp only [collapseNode] at hm
    rw [allNodes_cons] at hm
    simp only [TNode.children] at hm
    rcases List.mem_cons.mp hm with h | h
    · subst h; rfl
    · exact collapseForest_all_collapsed ch m h
theorem collapseForest_all_collapsed (ns : List TNode) :
    ∀ m ∈ allNodesForest (collapseForest ns), m.collapsed = true := by
  match ns with
  | [] =>
    intro m hm
    simp [collapseForest, allNodesForest] at hm
  | n :: rest =>
    intro m hm
    rw [collapseForest, allNodesForest_cons] at hm
    rcases List.mem_append.mp hm with h | h
    · exact collapseNode_all_collapsed n m h
    · exact collapseForest_all_collapsed rest m h
end

mutual
theorem eraseFlags_collapseNode (n : TNode) :
    eraseFlags (collapseNode n) = eraseFlags n := by
  cases n with
  | mk i c ch =>
    simp only [collapseNode, eraseFlags]
    rw [eraseForest_collapseForest ch]
theorem eraseForest_collapseForest (ns : List TNode) :
    eraseForest (collapseForest ns) = eraseForest ns := by
  match ns with
  | [] => rfl
  | n :: rest =>
    simp only [collapseForest, eraseForest]
    rw [eraseFlags_collapseNode n, eraseForest_collapseForest rest]
end

theorem eraseFlags_expandNode (n : TNode) :
    eraseFlags (expandNode n) = eraseFlags n := by
  cases n
  simp [expandNode, eraseFlags]

/-- C2: for every node of an assigned tree, `collapseNode` sets the
`_collapsed` flag of the node itself to `true` and, recursing through the
full child list `_children`, the flag of every descendant to `true`,
regardless of each descendant's prior flag value; nothing but flags
changes. -/
theorem collapseNode_collapses_all (n : TNode) :
    (∀ m ∈ (collapseNode n).allNodes, m.collapsed = true)
    ∧ eraseFlags (collapseNode n) = eraseFlags n :=
  ⟨collapseNode_all_collapsed n, eraseFlags_collapseNode n⟩

/-- C3: `expandNode` sets only the node's own `_collapsed` flag to `false`,
leaving its identifier and child list untouched (so no other node's flag
changes); and after `collapseNode` followed by `expandNode` on the same node
every proper descendant is still collapsed. -/
theorem expandNode_expands_only_self (n : TNode) :
    (expandNode n).collapsed = false
    ∧ (expandNode n).id = n.id
    ∧ (expandNode n).children = n.children
    ∧ (∀ m ∈ allNodesForest (expandNode (collapseNode n)).children,
        m.collapsed = true) := by
  cases n with
  | mk i c ch =>
    refine ⟨rfl, rfl, rfl, ?_⟩
    intro m hm
    simp only [collapseNode, expandNode, TNode.children] at hm
    exact collapseForest_all_collapsed ch m hm

mutual
/-- Number of nodes of a raw tree. -/
def RawNode.count : RawNode → Nat
  | .mk ch => 1 + countForest ch
/-- Number of nodes of a raw forest. -/
def countForest : List RawNode → Nat
  | [] => 0
  | r :: rs => r.count + countForest rs
end

theorem allIds_cons (n : TNode) (ns : List TNode) :
    allIds (n :: ns) = n.id :: (allIds n.children ++ allIds ns) := by
  simp only [allIds, allNodesForest_cons, List.map_append]
  rw [allNodes_cons]
  simp [allIds]

mutual
theorem assignNode_ids (r : RawNode) (c : Nat) :
    allIds [(assignNode r c).1] = List.range' c r.count
    ∧ (assignNode r c).2 = c + r.count := by
  match r with
  | .mk ch =>
    have h := assignForest_ids ch (c + 1)
    constructor
    · simp only [assignNode, RawNode.count]
      rw [allIds_cons]
      simp only [TNode.children, TNode.id, allIds, allNodesForest, List.append_nil, List.map_nil]
      rw [show allIds (assignInternalProperties ch (c + 1)).1
            = (allNodesForest (assignInternalProperties ch (c + 1)).1).map TNode.id from rfl] at h
      rw [h.1]
      rw [show 1 + countForest ch = countForest ch + 1 from Nat.add_comm 1 _]
      rw [List.range'_succ]
    · simp only [assignNode, RawNode.count]
      rw [h.2]
      omega
theorem assignForest_ids (rs : List RawNode) (c : Nat) :
    allIds (assignInternalProperties rs c).1 = List.range' c (countForest rs)
    ∧ (assignInternalProperties rs c).2 = c + countForest rs := by
  match rs with
  | [] =>
    constructor
    · rfl
    · simp [assignInternalProperties, countForest]
  | r :: rest =>
    have h1 := assignNode_ids r c
    have h2 := assignForest_ids rest (c + r.count)
    constructor
    · simp only [assignInternalProperties, countForest]
      rw [allIds_cons]
      have hc : allIds [(assignNode r c).1]
          = (assignNode r c).1.id :: allIds (assignNode r c).1.children := by
        rw [allIds_cons]
        simp [allIds, allNodesForest]
      rw [hc] at h1
      rw [h1.2]
      rw [h2.1]
      have := h1.1
      rw [show r.count + countForest rest = countForest rest + r.count from Nat.add_comm ..]
      rw [← List.range'_append c r.count (countForest rest) 1]
      simp only [Nat.one_mul]
      rw [← this]
      simp
    · simp only [assignInternalProperties, countForest]
      rw [h1.2]
      rw [h2.2]
      omega
end

theorem assignNode_allIds (r : RawNode) (c : Nat) :
    ((assignNode r c).1.allNodes).map TNode.id = List.range' c r.count := by
  have h := (assignNode_ids r c).1
  simpa [allIds, allNodesForest] using h

mutual
theorem assignNode_flags (r : RawNode) (c : Nat) :
    ∀ m ∈ (assignNode r c).1.allNodes, m.collapsed = false := by
  match r with
  | .mk ch =>
    intro m hm
    simp only [assignNode] at hm
    rw [allNodes_cons] at hm
    simp only [TNode.children] at hm
    rcases List.mem_cons.mp hm with h | h
    · subst h; rfl
    · exact assignForest_flags ch (c + 1) m h
theorem assignForest_flags (rs : List RawNode) (c : Nat) :
    ∀ m ∈ allNodesForest (assignInternalProperties rs c).1, m.collapsed = false := by
  match rs with
  | [] =>
    intro m hm
    simp [assignInternalProperties, allNodesForest] at hm
  | r :: rest =>
    intro m hm
    simp only [assignInternalProperties] at hm
    rw [allNodesForest_cons] at hm
    rcases List.mem_append.mp hm with h | h
    · exact assignNode_flags r c m h
    · exact assignForest_flags rest (assignNode r c).2 m h
end

theorem mem_allNodesForest_of_mem {m : TNode} {ns : List TNode} (h : m ∈ ns) :
    m ∈ allNodesForest ns := by
  induction ns with
  | nil => cases h
  | cons n rest ih =>
    rw [allNodesForest_cons]
    rcases List.mem_cons.mp h with h1 | h1
    · subst h1
      exact List.mem_append_left _ (self_mem_allNodes m)
    · exact List.mem_append_right _ (ih h1)

theorem id_mem_allIds {m : TNode} {ns : List TNode} (h : m ∈ allNodesForest ns) :
    m.id ∈ allIds ns :=
  List.mem_map_of_mem TNode.id h

mutual
theorem assignNode_parent_lt (r : RawNode) (c : Nat) :
    ∀ n ∈ (assignNode r c).1.allNodes, ∀ m ∈ n.children, n.id < m.id := by
  match r with
  | .mk ch =>
    intro n hn m hm
    simp only [assignNode] at hn
    rw [allNodes_cons] at hn
    simp only [TNode.children] at hn
    rcases List.mem_cons.mp hn with h | h
    · subst h
      simp only [TNode.children] at hm
      show c < m.id
      have hmem : m.id ∈ allIds (assignInternalProperties ch (c + 1)).1 :=
        id_mem_allIds (mem_allNodesForest_of_mem hm)
      rw [(assignForest_ids ch (c + 1)).1] at hmem
      have := (List.mem_range'_1.mp hmem).1
      omega
    · exact assignForest_parent_lt ch (c + 1) n h m hm
theorem assignForest_parent_lt (rs : List RawNode) (c : Nat) :
    ∀ n ∈ allNodesForest (assignInternalProperties rs c).1, ∀ m ∈ n.children,
      n.id < m.id := by
  match rs with
  | [] =>
    intro n hn
    simp [assignInternalProperties, allNodesForest] at hn
  | r :: rest =>
    intro n hn m hm
    simp only [assignInternalProperties] at hn
    rw [allNodesForest_cons] at hn
    rcases List.mem_append.mp hn with h | h
    · exact assignNode_parent_lt r c n h m hm
    · exact assignForest_parent_lt rest (assignNode r c).2 n h m hm
end

/-- A node with the JS `children` (visible child list) and `_children` (full
child list) kept as two separate fields.  It is used only to state the clause
of the assignment contract that the two lists coincide; the operational model
`TNode` identifies them because in the JS code both fields alias one
array. -/
inductive ATNode : Type where
  | mk (nodeId : Nat) (coll : Bool) (visible : List ATNode) (full : List ATNode) : ATNode

/-- The JS `node.children` field (visible child list) of the two-list node. -/
def ATNode.visibleList : ATNode → List ATNode
  | .mk _ _ v _ => v

/-- The JS `node._children` field (full child list) of the two-list node. -/
def ATNode.fullList : ATNode → List ATNode
  | .mk _ _ _ f => f

mutual
/-- Model of `assignInternalProperties` (Tree/index.js lines 138-149) with
the two child-list fields kept separate: when a non-empty child array exists
it is recursively assigned first (`node.children = this.assignInternalProperties(node.children)`)
and `_children` is then set to that very list (`node._children = node.children`);
a childless raw node keeps empty lists in both fields. -/
def assignInternalPropertiesA : List RawNode → Nat → List ATNode × Nat
  | [], c => ([], c)
  | r :: rs, c =>
    let p := assignNodeA r c
    let q := assignInternalPropertiesA rs p.2
    (p.1 :: q.1, q.2)
/-- One step of the two-list assignment on a single raw node. -/
def assignNodeA : RawNode → Nat → ATNode × Nat
  | .mk ch, c =>
    let q := assignInternalPropertiesA ch (c + 1)
    (.mk c false q.1 q.1, q.2)
end

mutual
/-- All nodes of a two-list tree, in preorder along the full child list. -/
def ATNode.allANodes : ATNode → List ATNode
  | .mk i c v f => .mk i c v f :: allANodesForest f
/-- All nodes of a two-list forest, in preorder. -/
def allANodesForest : List ATNode → List ATNode
  | [] => []
  | n :: ns => n.allANodes ++ allANodesForest ns
end

mutual
theorem assignNodeA_vis_eq_full (r : RawNode) (c : Nat) :
    ∀ m ∈ (assignNodeA r c).1.allANodes, m.visibleList = m.fullList := by
  match r with
  | .mk ch =>
    intro m hm
    simp only [assignNodeA, ATNode.allANodes] at hm
    rcases List.mem_cons.mp hm with h | h
    · subst h; rfl
    · exact assignForestA_vis_eq_full ch (c + 1) m h
theorem assignForestA_vis_eq_full (rs : List RawNode) (c : Nat) :
    ∀ m ∈ allANodesForest (assignInternalPropertiesA rs c).1,
      m.visibleList = m.fullList := by
  match rs with
  | [] =>
    intro m hm
    simp [assignInternalPropertiesA, allANodesForest] at hm
  | r :: rest =>
    intro m hm
    simp only [assignInternalPropertiesA, allANodesForest] at hm
    rcases List.mem_append.mp hm with h | h
    · exact assignNodeA_vis_eq_full r c m h
    · exact assignForestA_vis_eq_full rest (assignNodeA r c).2 m h
end

/-- C10: after `assignInternalProperties` over any raw input, the preorder
identifier list is exactly the fresh-supply segment starting at the current
counter, hence every node carries a freshly generated identifier and all
identifiers are distinct; every `_collapsed` flag is `false`; each parent's
visible-child list is fixed to the already-assigned full child list (the two
JS fields coincide, and every child's identifier is generated after its
parent's); and a childless raw node becomes a leaf with empty full and
visible child lists (the function is total, so no error is raised). -/
theorem assignInternalProperties_spec (rs : List RawNode) (c : Nat) :
    (allIds (assignInternalProperties rs c).1 = List.range' c (countForest rs)
      ∧ (allIds (assignInternalProperties rs c).1).Nodup)
    ∧ (∀ m ∈ allNodesForest (assignInternalProperties rs c).1, m.collapsed = false)
    ∧ (∀ n ∈ allNodesForest (assignInternalProperties rs c).1, ∀ m ∈ n.children,
        n.id < m.id)
    ∧ (∀ m ∈ allANodesForest (assignInternalPropertiesA rs c).1,
        m.visibleList = m.fullList)
    ∧ (∀ r : RawNode, r.children = [] → (assignNode r c).1.children = []) := by
  refine ⟨⟨(assignForest_ids rs c).1, ?_⟩, assignForest_flags rs c,
    assignForest_parent_lt rs c, assignForestA_vis_eq_full rs c, ?_⟩
  · rw [(assignForest_ids rs c).1]
    exact List.nodup_range' c (countForest rs)
  · intro r hr
    match r with
    | .mk ch =>
      simp only [RawNode.children] at hr
      subst hr
      rfl

theorem findNodesById_of_ne_nil (nodeId : Nat) (ns hits : List TNode)
    (h : hits ≠ []) : findNodesById nodeId ns hits = hits := by
  rw [findNodesById]
  exact if_pos (List.length_pos.mpr h)

theorem findDescend_of_ne_nil (nodeId : Nat) (ns hits : List TNode)
    (h : hits ≠ []) : findDescend nodeId ns hits = hits := by
  induction ns with
  | nil => rw [findDescend]
  | cons n rest ih =>
    rw [findDescend]
    have hstep :
        (if n.children.length > 0 then findNodesById nodeId n.children hits else hits)
          = hits := by
      split
      · exact findNodesById_of_ne_nil nodeId n.children hits h
      · rfl
    rw [hstep]
    exact ih

mutual
theorem findNodesById_not_mem (nodeId : Nat) (ns : List TNode)
    (h : nodeId ∉ allIds ns) : findNodesById nodeId ns [] = [] := by
  rw [findNodesById]
  rw [if_neg (by simp)]
  have hf : ns.filter (fun n => n.id == nodeId) = [] := by
    rw [List.filter_eq_nil_iff]
    intro n hn
    simp only [beq_iff_eq]
    intro heq
    exact h (heq ▸ id_mem_allIds (mem_allNodesForest_of_mem hn))
  rw [hf]
  exact findDescend_not_mem nodeId ns h
termination_by (sizeOf ns, 1)
theorem findDescend_not_mem (nodeId : Nat) (ns : List TNode)
    (h : nodeId ∉ allIds ns) : findDescend nodeId ns [] = [] := by
  match ns with
  | [] => rw [findDescend]
  | n :: rest =>
    rw [allIds_cons] at h
    simp only [List.mem_cons, List.mem_append] at h
    push_neg at h
    rw [findDescend]
    have hstep :
        (if n.children.length > 0 then findNodesById nodeId n.children [] else [])
          = ([] : List TNode) := by
      split
      · exact findNodesById_not_mem nodeId n.children h.2.1
      · rfl
    rw [hstep]
    exact findDescend_not_mem nodeId rest h.2.2
termination_by (sizeOf ns, 0)
decreasing_by
  · apply Prod.Lex.left
    have hlt := TNode.sizeOf_children_lt n
    simp only [List.cons.sizeOf_spec]
    omega
  · apply Prod.Lex.left
    simp only [List.cons.sizeOf_spec]
    omega
end

theorem allNodes_id_injective {ns : List TNode} (hnd : (allIds ns).Nodup)
    {a b : TNode} (ha : a ∈ allNodesForest ns) (hb : b ∈ allNodesForest ns)
    (hid : a.id = b.id) : a = b :=
  List.inj_on_of_nodup_map hnd ha hb hid

theorem filter_eq_singleton_of_root_match {ns : List TNode} {n : TNode}
    {nodeId : Nat} (hnd : (allIds ns).Nodup) (hn : n ∈ ns) (hid : n.id = nodeId) :
    ns.filter (fun x => x.id == nodeId) = [n] := by
  induction ns with
  | nil => cases hn
  | cons m rest ih =>
    rw [allIds_cons, List.nodup_cons, List.nodup_append] at hnd
    rcases List.mem_cons.mp hn with h1 | h1
    · subst h1
      rw [List.filter_cons, if_pos (by simp [hid])]
      have hrest : rest.filter (fun x => x.id == nodeId) = [] := by
        rw [List.filter_eq_nil_iff]
        intro x hx
        simp only [beq_iff_eq]
        intro heq
        have hx2 : x.id ∈ allIds rest := id_mem_allIds (mem_allNodesForest_of_mem hx)
        rw [heq, ← hid] at hx2
        exact hnd.1 (List.mem_append_right _ hx2)
      rw [hrest]
    · have hm : (m.id == nodeId) = false := by
        simp only [beq_eq_false_iff_ne, ne_eq]
        intro heq
        have hx2 : n.id ∈ allIds rest := id_mem_allIds (mem_allNodesForest_of_mem h1)
        rw [hid, ← heq] at hx2
        exact hnd.1 (List.mem_append_right _ hx2)
      rw [List.filter_cons, if_neg (by simp [hm])]
      exact ih hnd.2.2.1 h1

mutual
theorem findNodesById_found (nodeId : Nat) (ns : List TNode)
    (hnd : (allIds ns).Nodup) (hmem : nodeId ∈ allIds ns) :
    ∃ t, t ∈ allNodesForest ns ∧ t.id = nodeId ∧ findNodesById nodeId ns [] = [t] := by
  rw [findNodesById]
  rw [if_neg (by simp)]
  by_cases hroot : ∃ n ∈ ns, n.id = nodeId
  · obtain ⟨n, hn, hid⟩ := hroot
    rw [List.nil_append, filter_eq_singleton_of_root_match hnd hn hid]
    exact ⟨n, mem_allNodesForest_of_mem hn, hid,
      findDescend_of_ne_nil nodeId ns [n] (by simp)⟩
  · push_neg at hroot
    have hf : ns.filter (fun n => n.id == nodeId) = [] := by
      rw [List.filter_eq_nil_iff]
      intro n hn
      simp only [beq_iff_eq]
      exact hroot n hn
    rw [List.nil_append, hf]
    exact findDescend_found nodeId ns hnd hmem hroot
termination_by (sizeOf ns, 1)
theorem findDescend_found (nodeId : Nat) (ns : List TNode)
    (hnd : (allIds ns).Nodup) (hmem : nodeId ∈ allIds ns)
    (hroots : ∀ n ∈ ns, n.id ≠ nodeId) :
    ∃ t, t ∈ allNodesForest ns ∧ t.id = nodeId ∧ findDescend nodeId ns [] = [t] := by
  match ns with
  | [] => cases hmem
  | n :: rest =>
    rw [allIds_cons, List.nodup_cons, List.nodup_append] at hnd
    rw [allIds_cons] at hmem
    rcases List.mem_cons.mp hmem with h1 | h1
    · exact absurd h1.symm (hroots n (List.mem_cons_self ..))
    rcases List.mem_append.mp h1 with h2 | h2
    · have hch : n.children ≠ [] := by
        intro hnil
        rw [hnil] at h2
        cases h2
      obtain ⟨t, ht, hid, hfind⟩ :=
        findNodesById_found nodeId n.children hnd.2.1 h2
      refine ⟨t, ?_, hid, ?_⟩
      · rw [allNodesForest_cons, allNodes_cons]
        exact List.mem_append_left _ (List.mem_cons_of_mem _ ht)
      · rw [findDescend]
        rw [if_pos (List.length_pos.mpr hch), hfind]
        exact findDescend_of_ne_nil nodeId rest [t] (by simp)
    · have hnotch : nodeId ∉ allIds n.children := by
        intro hc
        exact hnd.2.2.2 hc h2
      obtain ⟨t, ht, hid, hfind⟩ := findDescend_found nodeId rest hnd.2.2.1 h2
        (fun m hm => hroots m (List.mem_cons_of_mem _ hm))
      refine ⟨t, List.mem_append_right _ ht, hid, ?_⟩
      rw [findDescend]
      have hstep :
          (if n.children.length > 0 then findNodesById nodeId n.children [] else [])
            = ([] : List TNode) := by
        split
        · exact findNodesById_not_mem nodeId n.children hnotch
        · rfl
      rw [hstep]
      exact hfind
termination_by (sizeOf ns, 0)
decreasing_by
  · apply Prod.Lex.left
    have hlt := TNode.sizeOf_children_lt n
    simp only [List.cons.sizeOf_spec]
    omega
  · apply Prod.Lex.left
    simp only [List.cons.sizeOf_spec]
    omega
end

mutual
theorem allIds_eraseFlags (n : TNode) :
    (eraseFlags n).allNodes.map TNode.id = n.allNodes.map TNode.id := by
  match n with
  | .mk i c ch =>
    simp only [eraseFlags]
    rw [allNodes_cons, allNodes_cons]
    simp only [TNode.children, List.map_cons, TNode.id]
    rw [show (allNodesForest (eraseForest ch)).map TNode.id = allIds (eraseForest ch)
          from rfl]
    rw [allIds_eraseForest ch]
    rfl
theorem allIds_eraseForest (ns : List TNode) :
    allIds (eraseForest ns) = allIds ns := by
  match ns with
  | [] => rfl
  | n :: rest =>
    simp only [eraseForest, allIds, allNodesForest_cons, List.map_append]
    rw [show (eraseFlags n).allNodes.map TNode.id = n.allNodes.map TNode.id
          from allIds_eraseFlags n]
    rw [show (allNodesForest (eraseForest rest)).map TNode.id = allIds (eraseForest rest)
          from rfl]
    rw [allIds_eraseForest rest]
    rfl
end

/-- C1: for every raw input processed by `assignInternalProperties` — and any
later flag state of it, so also when the target sits inside a collapsed
subtree — `findNodesById` returns exactly one node when the searched
identifier is assigned to some node, and the empty list when it is not; it
returns the accumulator untouched as soon as it is non-empty, and when a
node of the current node set matches, the result is the identifier filter of
that very set, i.e. every node of the current set is checked before any
descent into child lists. -/
theorem findNodesById_spec (raw : List RawNode) (c : Nat) (q : List TNode)
    (hq : eraseForest q = eraseForest (assignInternalProperties raw c).1)
    (nodeId : Nat) :
    (nodeId ∈ allIds q →
        (findNodesById nodeId q []).length = 1
        ∧ ∀ t ∈ findNodesById nodeId q [], t.id = nodeId ∧ t ∈ allNodesForest q)
    ∧ (nodeId ∉ allIds q → findNodesById nodeId q [] = [])
    ∧ (∀ hits, hits ≠ [] → findNodesById nodeId q hits = hits)
    ∧ ((∃ n ∈ q, n.id = nodeId) →
        findNodesById nodeId q [] = q.filter (fun n => n.id == nodeId)) := by
  have hids : allIds q = allIds (assignInternalProperties raw c).1 := by
    rw [← allIds_eraseForest q, hq, allIds_eraseForest]
  have hnd : (allIds q).Nodup := by
    rw [hids, (assignForest_ids raw c).1]
    exact List.nodup_range' ..
  refine ⟨?_, findNodesById_not_mem nodeId q, findNodesById_of_ne_nil nodeId q, ?_⟩
  · intro hmem
    obtain ⟨t, ht, hid, hfind⟩ := findNodesById_found nodeId q hnd hmem
    rw [hfind]
    refine ⟨rfl, ?_⟩
    intro t2 ht2
    rw [List.mem_singleton.mp ht2]
    exact ⟨hid, ht⟩
  · rintro ⟨n, hn, hid⟩
    rw [findNodesById]
    rw [if_neg (by simp), List.nil_append]
    apply findDescend_of_ne_nil
    intro hnil
    have hmem : n ∈ q.filter (fun x => x.id == nodeId) :=
      List.mem_filter.mpr ⟨hn, by simp [hid]⟩
    rw [hnil] at hmem
    cases hmem

/-- A raw example input: one root carrying two leaf children. -/
def rawExample : List RawNode := [.mk [.mk [], .mk []]]

/-- The assigned example (identifiers 0, 1, 2) with both child subtrees
manually collapsed, exercising lookup inside a collapsed subtree. -/
def qExample : List TNode := [.mk 0 false [.mk 1 true [], .mk 2 true []]]

/-- Witness for C1: looking up identifier 2 — a node inside a collapsed
subtree of the assigned example — yields exactly one hit, and looking up the
unassigned identifier 99 yields the empty list. -/
theorem findNodesById_spec_witness :
    (findNodesById 2 qExample []).length = 1 ∧ findNodesById 99 qExample [] = [] :=
  ⟨((findNodesById_spec rawExample 0 qExample rfl 2).1 (by decide)).1,
   (findNodesById_spec rawExample 0 qExample rfl 99).2.1 (by decide)⟩

/-- Result of one `handleNodeToggle` call: the committed tree state after
the call (`this.state.data` once `setState` has run, or the previous state
when no commit happens) and the argument handed to the `onClick` callback
(`none` standing for the JS `undefined`). -/
structure ToggleResult where
  newData : List TNode
  clicked : Option TNode

mutual
/-- Functional rendering of the in-place mutation, inside the cloned state,
of the node object that `findNodesById` returned: the forest with the
subtree of the first node carrying the searched identifier replaced by `f`
of it.  Under the unique-identifier invariant established by
`assignInternalProperties` this replaces exactly the node that the JS
reference mutation hits. -/
def modifyById (nodeId : Nat) (f : TNode → TNode) : List TNode → List TNode
  | [] => []
  | n :: rest =>
    if n.id = nodeId then f n :: rest
    else modifyNode nodeId f n :: modifyById nodeId f rest
/-- Descends the replacement of `modifyById` into one node's child list. -/
def modifyNode (nodeId : Nat) (f : TNode → TNode) : TNode → TNode
  | .mk i c ch => .mk i c (modifyById nodeId f ch)
end

/-- The ternary `targetNode._collapsed ? this.expandNode(targetNode) :
this.collapseNode(targetNode)` of `handleNodeToggle`. -/
def toggleOne (n : TNode) : TNode :=
  if n.collapsed then expandNode n else collapseNode n

/-- Model of `handleNodeToggle` (Tree/index.js lines 219-231): the committed
state is cloned (the model is pure), the target looked up with
`findNodesById`, and `matches[0]` taken.  With `collapsible` enabled the
found target is toggled in place and the clone committed via `setState`,
whose callback hands the (mutated) target node to the `onClick` callback;
when the lookup comes back empty, reading `._collapsed` of `undefined`
raises a TypeError, modelled by `none`.  With `collapsible` disabled the
`onClick` callback is invoked directly — with `undefined` when the lookup
missed — and the committed state is untouched. -/
def handleNodeToggle (collapsible : Bool) (nodeId : Nat) (data : List TNode) :
    Option ToggleResult :=
  match (findNodesById nodeId data []).head? with
  | some t =>
    if collapsible then
      some ⟨modifyById nodeId toggleOne data, some (toggleOne t)⟩
    else
      some ⟨data, some t⟩
  | none =>
    if collapsible then none
    else some ⟨data, none⟩

theorem collapseNode_id (n : TNode) : (collapseNode n).id = n.id := by
  cases n
  rfl

theorem expandNode_id (n : TNode) : (expandNode n).id = n.id := by
  cases n
  rfl

theorem toggleOne_id (n : TNode) : (toggleOne n).id = n.id := by
  simp only [toggleOne]
  split
  · exact expandNode_id n
  · exact collapseNode_id n

theorem eraseFlags_toggleOne (n : TNode) : eraseFlags (toggleOne n) = eraseFlags n := by
  simp only [toggleOne]
  split
  · exact eraseFlags_expandNode n
  · exact eraseFlags_collapseNode n

mutual
theorem eraseForest_modifyById (nodeId : Nat) (f : TNode → TNode)
    (hf : ∀ n, eraseFlags (f n) = eraseFlags n) (ns : List TNode) :
    eraseForest (modifyById nodeId f ns) = eraseForest ns := by
  match ns with
  | [] => rfl
  | n :: rest =>
    simp only [modifyById]
    split
    · simp only [eraseForest]
      rw [hf n]
    · simp only [eraseForest]
      rw [eraseFlags_modifyNode nodeId f hf n, eraseForest_modifyById nodeId f hf rest]
theorem eraseFlags_modifyNode (nodeId : Nat) (f : TNode → TNode)
    (hf : ∀ n, eraseFlags (f n) = eraseFlags n) (n : TNode) :
    eraseFlags (modifyNode nodeId f n) = eraseFlags n := by
  match n with
  | .mk i c ch =>
    simp only [modifyNode, eraseFlags]
    rw [eraseForest_modifyById nodeId f hf ch]
end

mutual
theorem toggled_mem_modifyById (nodeId : Nat) (f : TNode → TNode) (ns : List TNode)
    (hnd : (allIds ns).Nodup) {t : TNode} (ht : t ∈ allNodesForest ns)
    (hid : t.id = nodeId) :
    f t ∈ allNodesForest (modifyById nodeId f ns) := by
  match ns with
  | [] => cases ht
  | n :: rest =>
    have hnd2 := hnd
    rw [allIds_cons, List.nodup_cons, List.nodup_append] at hnd2
    simp only [modifyById]
    split
    · next heq =>
      have hteqn : t = n :=
        allNodes_id_injective hnd ht
          (mem_allNodesForest_of_mem (List.mem_cons_self ..)) (by rw [hid, heq])
      subst hteqn
      rw [allNodesForest_cons]
      exact List.mem_append_left _ (self_mem_allNodes (f t))
    · next hne =>
      rw [allNodesForest_cons] at ht
      rw [allNodesForest_cons]
      rcases List.mem_append.mp ht with h1 | h1
      · rw [allNodes_cons] at h1
        rcases List.mem_cons.mp h1 with h2 | h2
        · exact absurd (by rw [← h2]; exact hid) hne
        · exact List.mem_append_left _
            (toggled_mem_modifyNode nodeId f n hnd2.2.1 h2 hid)
      · exact List.mem_append_right _
          (toggled_mem_modifyById nodeId f rest hnd2.2.2.1 h1 hid)
theorem toggled_mem_modifyNode (nodeId : Nat) (f : TNode → TNode) (n : TNode)
    (hnd : (allIds n.children).Nodup) {t : TNode}
    (ht : t ∈ allNodesForest n.children) (hid : t.id = nodeId) :
    f t ∈ (modifyNode nodeId f n).allNodes := by
  match n with
  | .mk i c ch =>
    simp only [TNode.children] at hnd ht
    simp only [modifyNode]
    rw [allNodes_cons]
    simp only [TNode.children]
    exact List.mem_cons_of_mem _ (toggled_mem_modifyById nodeId f ch hnd ht hid)
end

theorem allIds_modifyById_toggle (data : List TNode) (nodeId : Nat) :
    allIds (modifyById nodeId toggleOne data) = allIds data := by
  rw [← allIds_eraseForest (modifyById nodeId toggleOne data),
    eraseForest_modifyById nodeId toggleOne eraseFlags_toggleOne data,
    allIds_eraseForest]

theorem find_modifyById_toggle (data : List TNode) (nodeId : Nat) {t : TNode}
    (hnd : (allIds data).Nodup) (ht : t ∈ allNodesForest data)
    (hid : t.id = nodeId) :
    findNodesById nodeId (modifyById nodeId toggleOne data) [] = [toggleOne t] := by
  have hids := allIds_modifyById_toggle data nodeId
  have hnd2 : (allIds (modifyById nodeId toggleOne data)).Nodup := by
    rw [hids]
    exact hnd
  have hmem2 : nodeId ∈ allIds (modifyById nodeId toggleOne data) := by
    rw [hids, ← hid]
    exact id_mem_allIds ht
  obtain ⟨t2, ht2, hid2, hfind⟩ :=
    findNodesById_found nodeId (modifyById nodeId toggleOne data) hnd2 hmem2
  have heq : t2 = toggleOne t :=
    allNodes_id_injective hnd2 ht2
      (toggled_mem_modifyById nodeId toggleOne data hnd ht hid)
      (by rw [hid2, toggleOne_id, hid])
  rw [hfind, heq]

/-- C4: with collapsible mode enabled, `handleNodeToggle` looks the target up
in a clone of the committed state, applies `expandNode` to it when its
`_collapsed` flag is currently set and `collapseNode` otherwise, commits the
mutated clone as the new tree state (in which the target carries the toggled
flag and the identifier set is untouched), and hands the mutated target to
the `onClick` callback; with collapsible mode disabled it invokes `onClick`
on the target and the committed state is completely unchanged. -/
theorem handleNodeToggle_spec (data : List TNode) (nodeId : Nat) (t : TNode)
    (hnd : (allIds data).Nodup) (ht : t ∈ allNodesForest data)
    (hid : t.id = nodeId) :
    findNodesById nodeId data [] = [t]
    ∧ handleNodeToggle true nodeId data
        = some ⟨modifyById nodeId toggleOne data, some (toggleOne t)⟩
    ∧ findNodesById nodeId (modifyById nodeId toggleOne data) [] = [toggleOne t]
    ∧ allIds (modifyById nodeId toggleOne data) = allIds data
    ∧ (t.collapsed = true → toggleOne t = expandNode t)
    ∧ (t.collapsed = false → toggleOne t = collapseNode t)
    ∧ handleNodeToggle false nodeId data = some ⟨data, some t⟩ := by
  have hfind : findNodesById nodeId data [] = [t] := by
    obtain ⟨t2, ht2, hid2, hfind2⟩ :=
      findNodesById_found nodeId data hnd (by rw [← hid]; exact id_mem_allIds ht)
    have heq : t2 = t := allNodes_id_injective hnd ht2 ht (by rw [hid2, hid])
    rw [hfind2, heq]
  refine ⟨hfind, ?_, find_modifyById_toggle data nodeId hnd ht hid,
    allIds_modifyById_toggle data nodeId, ?_, ?_, ?_⟩
  · simp [handleNodeToggle, hfind]
  · intro h
    simp [toggleOne, h]
  · intro h
    simp [toggleOne, h]
  · simp [handleNodeToggle, hfind]

/-- Witness for C4 at a concrete input: toggling the (collapsed) node with
identifier 1 of the example state commits the clone in which that node has
been expanded, and with collapsible mode off the state is returned
unchanged. -/
theorem handleNodeToggle_spec_witness :
    handleNodeToggle true 1 qExample
      = some ⟨modifyById 1 toggleOne qExample, some (toggleOne (TNode.mk 1 true []))⟩
    ∧ handleNodeToggle false 1 qExample
      = some ⟨qExample, some (TNode.mk 1 true [])⟩ :=
  ⟨(handleNodeToggle_spec qExample 1 (TNode.mk 1 true []) (by decide) (by decide)
      rfl).2.1,
   (handleNodeToggle_spec qExample 1 (TNode.mk 1 true []) (by decide) (by decide)
      rfl).2.2.2.2.2.2⟩

/-- Counterexample to C5 as stated: with collapsible mode enabled (its
default), invoking `handleNodeToggle` with an identifier matching no node is
not a silent no-op — `matches[0]` is `undefined` and reading its
`._collapsed` raises a TypeError (modelled by `none`), so the call does not
return normally. -/
theorem handleNodeToggle_missing_counterexample :
    handleNodeToggle true 1 [TNode.mk 0 false []] = none := by
  have hfind : findNodesById 1 [TNode.mk 0 false []] [] = [] :=
    findNodesById_not_mem 1 [TNode.mk 0 false []] (by decide)
  simp [handleNodeToggle, hfind]

/-- C5 as amended: for an identifier matching no node, the lookup comes back
empty; with collapsible mode disabled the call is a silent no-op (the
`onClick` callback receives `undefined` and the committed state is
unchanged), but with collapsible mode enabled dereferencing the missing
target raises a TypeError (modelled by `none`) — in both cases no state
commit happens. -/
theorem handleNodeToggle_missing_spec (data : List TNode) (nodeId : Nat)
    (h : nodeId ∉ allIds data) :
    findNodesById nodeId data [] = []
    ∧ handleNodeToggle true nodeId data = none
    ∧ handleNodeToggle false nodeId data = some ⟨data, none⟩ := by
  have hfind := findNodesById_not_mem nodeId data h
  refine ⟨hfind, ?_, ?_⟩
  · simp [handleNodeToggle, hfind]
  · simp [handleNodeToggle, hfind]

/-- Witness for the amended C5 at a concrete input: identifier 99 is
unassigned in the example state; with collapsible mode disabled the call
leaves the state untouched, with it enabled the call errors. -/
theorem handleNodeToggle_missing_spec_witness :
    handleNodeToggle false 99 qExample = some ⟨qExample, none⟩
    ∧ handleNodeToggle true 99 qExample = none :=
  ⟨(handleNodeToggle_missing_spec qExample 99 (by decide)).2.2,
   (handleNodeToggle_missing_spec qExample 99 (by decide)).2.1⟩

/-- Witness for C2 at a concrete input: after collapsing the example root,
the root of the result is marked collapsed (and, by the same theorem, so is
every other node of the resulting subtree). -/
theorem collapseNode_collapses_all_witness :
    (collapseNode (TNode.mk 0 false [TNode.mk 1 false []])).collapsed = true :=
  (collapseNode_collapses_all (TNode.mk 0 false [TNode.mk 1 false []])).1
    (collapseNode (TNode.mk 0 false [TNode.mk 1 false []]))
    (self_mem_allNodes _)

/-- Witness for C3 at a concrete input: expanding the collapsed example root
clears only the root's own flag, while the child collapsed by the preceding
cascade stays collapsed. -/
theorem expandNode_expands_only_self_witness :
    (expandNode (TNode.mk 0 false [TNode.mk 1 false []])).collapsed = false
    ∧ TNode.collapsed (TNode.mk 1 true []) = true :=
  ⟨(expandNode_expands_only_self (TNode.mk 0 false [TNode.mk 1 false []])).1,
   (expandNode_expands_only_self (TNode.mk 0 false [TNode.mk 1 false []])).2.2.2
     (TNode.mk 1 true []) (by decide)⟩

/-- Witness for C10 at a concrete input: assigning the example raw input from
counter 0 hands out exactly the identifiers 0, 1, 2; the assigned node with
identifier 1 has its flag cleared; and a childless raw node becomes a
childless leaf. -/
theorem assignInternalProperties_spec_witness :
    allIds (assignInternalProperties rawExample 0).1 = List.range' 0 3
    ∧ TNode.collapsed (TNode.mk 1 false []) = false
    ∧ (assignNode (RawNode.mk []) 5).1.children = [] :=
  ⟨by rw [(assignInternalProperties_spec rawExample 0).1.1]; rfl,
   (assignInternalProperties_spec rawExample 0).2.1 (TNode.mk 1 false []) (by decide),
   (assignInternalProperties_spec rawExample 5).2.2.2.2 (RawNode.mk []) rfl⟩

/-- The `props.scaleExtent` configuration object. -/
structure ScaleExtent where
  min : ℚ
  max : ℚ

/-- The viewport state returned by `calculateD3Geometry`. -/
structure D3Geometry where
  translate : ℚ × ℚ
  scale : ℚ

/-- Model of `calculateD3Geometry` (Tree/index.js lines 327-342): clamps the
initial zoom into the configured extent — above the maximum the scale
becomes the maximum, below the minimum the minimum, otherwise the zoom value
is kept — and passes the translate through unchanged. -/
def calculateD3Geometry (translate : ℚ × ℚ) (zoom : ℚ)
    (scaleExtent : ScaleExtent) : D3Geometry :=
  ⟨translate,
    if zoom > scaleExtent.max then scaleExtent.max
    else if zoom < scaleExtent.min then scaleExtent.min
    else zoom⟩

/-- C9: for every zoom value and every scale extent with `min ≤ max`, the
initial-scale clamp of `calculateD3Geometry` returns the maximum when the
zoom exceeds it, the minimum when the zoom lies below it, and the zoom
unchanged otherwise; the translate passes through untouched. -/
theorem calculateD3Geometry_spec (translate : ℚ × ℚ) (zoom : ℚ)
    (ext : ScaleExtent) (h : ext.min ≤ ext.max) :
    (zoom > ext.max → (calculateD3Geometry translate zoom ext).scale = ext.max)
    ∧ (zoom < ext.min → (calculateD3Geometry translate zoom ext).scale = ext.min)
    ∧ (ext.min ≤ zoom → zoom ≤ ext.max →
        (calculateD3Geometry translate zoom ext).scale = zoom)
    ∧ (calculateD3Geometry translate zoom ext).translate = translate := by
  refine ⟨?_, ?_, ?_, rfl⟩
  · intro hz
    simp only [calculateD3Geometry]
    rw [if_pos hz]
  · intro hz
    simp only [calculateD3Geometry]
    rw [if_neg (by linarith), if_pos hz]
  · intro h1 h2
    simp only [calculateD3Geometry]
    rw [if_neg (by linarith), if_neg (by linarith)]

/-- Witness for C9 at the concrete inputs of the claim, with the default
extent: zoom 5 clamps to 1, zoom 0.01 clamps to 0.1, zoom 0.5 stays 0.5. -/
theorem calculateD3Geometry_spec_witness :
    (calculateD3Geometry (0, 0) 5 ⟨1/10, 1⟩).scale = 1
    ∧ (calculateD3Geometry (0, 0) (1/100) ⟨1/10, 1⟩).scale = 1/10
    ∧ (calculateD3Geometry (0, 0) (1/2) ⟨1/10, 1⟩).scale = 1/2 :=
  ⟨(calculateD3Geometry_spec (0, 0) 5 ⟨1/10, 1⟩ (by norm_num)).1 (by norm_num),
   (calculateD3Geometry_spec (0, 0) (1/100) ⟨1/10, 1⟩ (by norm_num)).2.1
     (by norm_num),
   (calculateD3Geometry_spec (0, 0) (1/2) ⟨1/10, 1⟩ (by norm_num)).2.2.1
     (by norm_num) (by norm_num)⟩

/-- Orientation of the rendered tree. -/
inductive Orientation : Type where
  | horizontal
  | vertical
deriving DecidableEq

/-- The `props.nodeSize` configuration. -/
structure NodeSize where
  x : ℚ
  y : ℚ

/-- The `props.separation` configuration. -/
structure Separation where
  siblings : ℚ
  nonSiblings : ℚ

/-- The layout-relevant props of the Tree component. -/
structure TreeProps where
  orientation : Orientation
  nodeSize : NodeSize
  separation : Separation
  initialDepth : Option Nat
  depthFactor : Option ℚ

/-- The separation callback passed to the d3 layout (Tree/index.js lines
295-297): `(a, b) => (a.parent.id === b.parent.id ? separation.siblings :
separation.nonSiblings)`.  Parent identifiers are `Option Nat`, `none`
standing for the root's absent parent (never compared by the layout). -/
def separationValue (sep : Separation) (aParentId bParentId : Option Nat) : ℚ :=
  if aParentId = bParentId then sep.siblings else sep.nonSiblings

/-- The children accessor passed to the d3 layout (line 298):
`d => (d._collapsed ? null : d._children)`; d3 treats `null` as the absence
of children, so a collapsed node is a leaf of the visible traversal. -/
def visibleChildren (n : TNode) : List TNode :=
  if n.collapsed then [] else n.children

/-- One entry of the node list produced by the layout: identifier, depth,
and the computed position in the native axes of the d3 algorithm (`x` the
off-axis/breadth coordinate, `y` the depth-axis coordinate). -/
structure LayoutNode where
  nodeId : Nat
  depth : Nat
  x : ℚ
  y : ℚ
deriving DecidableEq

/-- Intermediate layout entry before the depth-axis coordinate is filled
in. -/
structure PreNode where
  nodeId : Nat
  depth : Nat
  x : ℚ
deriving DecidableEq

/-- Off-axis position of a leaf of the visible traversal: 0 for the very
first leaf placed, otherwise the previous leaf's position plus `dx` times
the separation callback applied to the parent identifiers of the two
leaves. -/
def leafX (dx : ℚ) (sep : Separation) (parentId : Option Nat)
    (acc : Option (Option Nat × ℚ)) : ℚ :=
  match acc with
  | none => 0
  | some (prevParent, prevX) => prevX + dx * separationValue sep parentId prevParent

mutual
/-- Modelled from the spec: the off-axis placement of the external d3 tree
layout (`layout.tree()` of the d3 package, which is not part of src/).
Following the spec's layout-engine contract, each node's depth is its
traversal distance from the root along visible children; leaves of the
visible traversal are placed left to right, each at the previous leaf's
position plus `dx` times the separation callback of Tree/index.js lines
295-297 applied to the two leaves' parent identifiers; an inner node sits at
the midpoint of its outermost children; a collapsed node is a leaf because
the children accessor of line 298 hides its child list.  The accumulator
carries the parent identifier and position of the most recently placed leaf.
Returns the preorder node list of the subtree, the node's own off-axis
position, and the updated accumulator. -/
def layoutNode (dx : ℚ) (sep : Separation) (parentId : Option Nat) (depth : Nat)
    (acc : Option (Option Nat × ℚ)) :
    TNode → List PreNode × ℚ × Option (Option Nat × ℚ)
  | .mk i true _ =>
    ([⟨i, depth, leafX dx sep parentId acc⟩], leafX dx sep parentId acc,
      some (parentId, leafX dx sep parentId acc))
  | .mk i false ch =>
    match layoutForest dx sep (some i) (depth + 1) acc ch with
    | none =>
      ([⟨i, depth, leafX dx sep parentId acc⟩], leafX dx sep parentId acc,
        some (parentId, leafX dx sep parentId acc))
    | some (ns, firstX, lastX, acc2) =>
      (⟨i, depth, (firstX + lastX) / 2⟩ :: ns, (firstX + lastX) / 2, acc2)
/-- Lays out a (visible) child list left to right, returning `none` for an
empty list and otherwise the node lists, the off-axis positions of the first
and of the last child, and the updated accumulator. -/
def layoutForest (dx : ℚ) (sep : Separation) (parentId : Option Nat) (depth : Nat)
    (acc : Option (Option Nat × ℚ)) :
    List TNode → Option (List PreNode × ℚ × ℚ × Option (Option Nat × ℚ))
  | [] => none
  | n :: ns =>
    let p := layoutNode dx sep parentId depth acc n
    match layoutForest dx sep parentId depth p.2.2 ns with
    | none => some (p.1, p.2.1, p.2.1, p.2.2)
    | some (ms, _, lastX, acc2) => some (p.1 ++ ms, p.2.1, lastX, acc2)
end

/-- Modelled from the spec: the node list of `tree.nodes(rootNode)` in the
native axes of the algorithm, shifted so that the root's off-axis position
is 0 (the d3 normalisation of the layout origin). -/
def d3TreeNodes (dx : ℚ) (sep : Separation) (root : TNode) : List PreNode :=
  let p := layoutNode dx sep none 0 none root
  p.1.map (fun n => ⟨n.nodeId, n.depth, n.x - p.2.1⟩)

mutual
/-- Modelled from the spec: the link list of `tree.links(nodes)` — one
(source identifier, target identifier) pair for every visible parent-child
edge. -/
def visibleLinks : TNode → List (Nat × Nat)
  | .mk _ true _ => []
  | .mk i false ch => ch.map (fun c => (i, c.id)) ++ visibleLinksForest ch
/-- Link lists of a visible forest. -/
def visibleLinksForest : List TNode → List (Nat × Nat)
  | [] => []
  | n :: ns => visibleLinks n ++ visibleLinksForest ns
end

mutual
/-- Model of `setInitialTreeDepth` (Tree/index.js lines 84-88) as a state
transformation: every node of the visible node list of the current pass gets
`_collapsed = (depth >= initialDepth)`; nodes hidden inside an
already-collapsed subtree are not part of `nodeSet` and keep their flags (on
a true first render no node is hidden, since assignment cleared every
flag). -/
def markVisibleNode (cutoff depth : Nat) : TNode → TNode
  | .mk i true ch => .mk i (decide (cutoff ≤ depth)) ch
  | .mk i false ch =>
    .mk i (decide (cutoff ≤ depth)) (markVisibleForest cutoff (depth + 1) ch)
/-- Marks a visible child list. -/
def markVisibleForest (cutoff depth : Nat) : List TNode → List TNode
  | [] => []
  | n :: ns => markVisibleNode cutoff depth n :: markVisibleForest cutoff depth ns
end

/-- The first component of the node-size pair handed to the d3 layout
(Tree/index.js line 294, the off-axis spacing): `nodeSize.y` for horizontal
orientation, `nodeSize.x` for vertical. -/
def dxOf (props : TreeProps) : ℚ :=
  match props.orientation with
  | .horizontal => props.nodeSize.y
  | .vertical => props.nodeSize.x

/-- The second component of the node-size pair handed to the d3 layout
(line 294, the per-depth spacing): `nodeSize.x` for horizontal orientation,
`nodeSize.y` for vertical. -/
def dyOf (props : TreeProps) : ℚ :=
  match props.orientation with
  | .horizontal => props.nodeSize.x
  | .vertical => props.nodeSize.y

/-- One full result of `generateTree`: the laid-out node list, the link
list, and the tree state after the call (the d3 node objects alias
`this.state.data`, so the flag writes of `setInitialTreeDepth` on the first
render land in the committed state). -/
structure GenerateResult where
  nodes : List LayoutNode
  links : List (Nat × Nat)
  newData : List TNode

/-- Model of `generateTree` (Tree/index.js lines 289-316): the d3 layout is
configured with the node-size pair swapped for horizontal orientation
(line 294: `[nodeSize.y, nodeSize.x]` against `[nodeSize.x, nodeSize.y]`),
the separation callback of lines 295-297 and the children accessor of line
298; `rootNode` is `this.state.data[0]` (on an empty data array d3 throws on
`undefined`, modelled by `none`); `nodes` and `links` are derived first,
then — only when `initialDepth` is defined and this is the initial render —
`setInitialTreeDepth` rewrites the flags of the already-computed node list
(aliasing the state), and finally a configured `depthFactor` overrides every
node's depth-axis coordinate with `node.y = node.depth * depthFactor`. -/
def generateTree (props : TreeProps) (initialRender : Bool) (data : List TNode) :
    Option GenerateResult :=
  match data with
  | [] => none
  | root :: restData =>
    let pre := d3TreeNodes (dxOf props) props.separation root
    let nodes := pre.map (fun n =>
      ⟨n.nodeId, n.depth, n.x,
        match props.depthFactor with
        | some f => (n.depth : ℚ) * f
        | none => (n.depth : ℚ) * dyOf props⟩)
    let links := visibleLinks root
    let newData :=
      match props.initialDepth, initialRender with
      | some cutoff, true => markVisibleNode cutoff 0 root :: restData
      | some _, false => data
      | none, _ => data
    some ⟨nodes, links, newData⟩

/-- The node list of a `generateTree` call (empty for the empty-data error
case). -/
def genNodes (props : TreeProps) (initialRender : Bool) (data : List TNode) :
    List LayoutNode :=
  match generateTree props initialRender data with
  | none => []
  | some g => g.nodes

/-- The depth list of the nodes of a `generateTree` call. -/
def genDepths (props : TreeProps) (initialRender : Bool) (data : List TNode) :
    List Nat :=
  (genNodes props initialRender data).map LayoutNode.depth

/-- The (depth, off-axis position) pairs of the nodes of a `generateTree`
call. -/
def genPairs (props : TreeProps) (initialRender : Bool) (data : List TNode) :
    List (Nat × ℚ) :=
  (genNodes props initialRender data).map (fun n => (n.depth, n.x))

/-- The committed tree state after a `generateTree` call (unchanged when the
call errors on empty data). -/
def genData (props : TreeProps) (initialRender : Bool) (data : List TNode) :
    List TNode :=
  match generateTree props initialRender data with
  | none => data
  | some g => g.newData

mutual
/-- Decides whether, with the tree hanging at the given depth, every node's
flag equals the test `depth >= cutoff` written by `setInitialTreeDepth`. -/
def flagsMatchDepth (cutoff depth : Nat) : TNode → Bool
  | .mk _ c ch =>
    (c == decide (cutoff ≤ depth)) && flagsMatchDepthForest cutoff (depth + 1) ch
/-- Forest version of `flagsMatchDepth`. -/
def flagsMatchDepthForest (cutoff depth : Nat) : List TNode → Bool
  | [] => true
  | n :: ns =>
    flagsMatchDepth cutoff depth n && flagsMatchDepthForest cutoff depth ns
end

mutual
theorem markVisibleNode_flags (cutoff depth : Nat) (n : TNode)
    (h : ∀ m ∈ n.allNodes, m.collapsed = false) :
    flagsMatchDepth cutoff depth (markVisibleNode cutoff depth n) = true := by
  match n with
  | .mk i c ch =>
    have hc : c = false := h (.mk i c ch) (self_mem_allNodes _)
    subst hc
    simp only [markVisibleNode, flagsMatchDepth, Bool.and_eq_true, beq_self_eq_true,
      true_and]
    refine markVisibleForest_flags cutoff (depth + 1) ch ?_
    intro m hm
    refine h m ?_
    rw [allNodes_cons]
    exact List.mem_cons_of_mem _ hm
theorem markVisibleForest_flags (cutoff depth : Nat) (ns : List TNode)
    (h : ∀ m ∈ allNodesForest ns, m.collapsed = false) :
    flagsMatchDepthForest cutoff depth (markVisibleForest cutoff depth ns) = true := by
  match ns with
  | [] => rfl
  | n :: rest =>
    simp only [markVisibleForest, flagsMatchDepthForest, Bool.and_eq_true]
    constructor
    · refine markVisibleNode_flags cutoff depth n ?_
      intro m hm
      refine h m ?_
      rw [allNodesForest_cons]
      exact List.mem_append_left _ hm
    · refine markVisibleForest_flags cutoff depth rest ?_
      intro m hm
      refine h m ?_
      rw [allNodesForest_cons]
      exact List.mem_append_right _ hm
end

mutual
theorem eraseFlags_markVisibleNode (cutoff depth : Nat) (n : TNode) :
    eraseFlags (markVisibleNode cutoff depth n) = eraseFlags n := by
  match n with
  | .mk i true ch => rfl
  | .mk i false ch =>
    simp only [markVisibleNode, eraseFlags]
    rw [eraseForest_markVisibleForest cutoff (depth + 1) ch]
theorem eraseForest_markVisibleForest (cutoff depth : Nat) (ns : List TNode) :
    eraseForest (markVisibleForest cutoff depth ns) = eraseForest ns := by
  match ns with
  | [] => rfl
  | n :: rest =>
    simp only [markVisibleForest, eraseForest]
    rw [eraseFlags_markVisibleNode cutoff depth n,
      eraseForest_markVisibleForest cutoff depth rest]
end

/-- C6 as amended: when `initialDepth` is configured and it is the first
render, `generateTree` commits a state in which every node of the (fully
expanded) laid-out tree carries `_collapsed = (depth >= cutoff)` — every
node at or beyond the cutoff is marked collapsed, none is removed (the
erased structure is unchanged) — but the marking happens only after the
node/link lists of that pass were derived: the first pass's node list equals
the node list of a pass without any marking.  On every later render
(`initialRender = false`) the committed state is returned completely
unchanged, so the truncation is never re-applied and a node manually
expanded past the cutoff stays expanded. -/
theorem generateTree_initialDepth_spec (props : TreeProps) (cutoff : Nat)
    (root : TNode) (rest : List TNode)
    (hcut : props.initialDepth = some cutoff)
    (hexp : ∀ m ∈ root.allNodes, m.collapsed = false) :
    genData props true (root :: rest) = markVisibleNode cutoff 0 root :: rest
    ∧ flagsMatchDepth cutoff 0 (markVisibleNode cutoff 0 root) = true
    ∧ eraseFlags (markVisibleNode cutoff 0 root) = eraseFlags root
    ∧ genNodes props true (root :: rest) = genNodes props false (root :: rest)
    ∧ (∀ d2 : List TNode, genData props false d2 = d2) := by
  refine ⟨?_, markVisibleNode_flags cutoff 0 root hexp,
    eraseFlags_markVisibleNode cutoff 0 root, rfl, ?_⟩
  · simp [genData, generateTree, hcut]
  · intro d2
    match d2 with
    | [] => rfl
    | r :: rs =>
      rcases h2 : props.initialDepth with _ | k
      · simp [genData, generateTree, h2]
      · simp [genData, generateTree, h2]

/-- A three-node chain (identifiers 0, 1, 2 at depths 0, 1, 2), fully
expanded. -/
def chainExample : List TNode := [.mk 0 false [.mk 1 false [.mk 2 false []]]]

/-- Props with `initialDepth = 1` for the truncation-order counterexample
and witness. -/
def propsC6 : TreeProps := ⟨.horizontal, ⟨1, 1⟩, ⟨1, 2⟩, some 1, none⟩

/-- Counterexample to C6 as stated: on the first layout pass over a
three-node chain with `initialDepth = 1`, the node at depth 2 — strictly
beyond the cutoff — still appears in that very pass's visible node list,
because `setInitialTreeDepth` runs only after `tree.nodes` and `tree.links`
were derived (Tree/index.js lines 301-307); had the marking preceded the
derivation, the traversal would not have descended past the collapsed
depth-1 node. -/
theorem generateTree_truncation_order_counterexample :
    propsC6.initialDepth = some 1 ∧ 2 ∈ genDepths propsC6 true chainExample := by
  constructor
  · rfl
  · decide

/-- Witness for the amended C6 at a concrete input: the first pass over the
chain commits the state with the depth-1 and depth-2 nodes marked collapsed
and the root left expanded, and a second pass leaves that state untouched. -/
theorem generateTree_initialDepth_spec_witness :
    genData propsC6 true chainExample
      = [TNode.mk 0 false [TNode.mk 1 true [TNode.mk 2 true []]]]
    ∧ genData propsC6 false [TNode.mk 0 false [TNode.mk 1 true [TNode.mk 2 true []]]]
      = [TNode.mk 0 false [TNode.mk 1 true [TNode.mk 2 true []]]] := by
  have h := generateTree_initialDepth_spec propsC6 1
    (TNode.mk 0 false [TNode.mk 1 false [TNode.mk 2 false []]]) [] rfl (by decide)
  constructor
  · rw [show chainExample
        = [TNode.mk 0 false [TNode.mk 1 false [TNode.mk 2 false []]]] from rfl]
    rw [h.1]
    rfl
  · exact h.2.2.2.2 [TNode.mk 0 false [TNode.mk 1 true [TNode.mk 2 true []]]]

/-- The (identifier, depth) projection of a pre-layout node list. -/
def preShape (ps : List PreNode) : List (Nat × Nat) :=
  ps.map (fun p => (p.nodeId, p.depth))

/-- The depth projection of a pre-layout node list. -/
def preDepths (ps : List PreNode) : List Nat :=
  ps.map PreNode.depth

mutual
theorem layoutNode_shape (dx dx' : ℚ) (sep sep' : Separation)
    (pid pid' : Option Nat) (d : Nat) (acc acc' : Option (Option Nat × ℚ))
    (n : TNode) :
    preShape (layoutNode dx sep pid d acc n).1
      = preShape (layoutNode dx' sep' pid' d acc' n).1 := by
  match n with
  | .mk i true ch => rfl
  | .mk i false ch =>
    have hf := layoutForest_shape dx dx' sep sep' (some i) (some i) (d + 1) acc acc' ch
    simp only [layoutNode]
    cases hA : layoutForest dx sep (some i) (d + 1) acc ch with
    | none =>
      cases hB : layoutForest dx' sep' (some i) (d + 1) acc' ch with
      | none => rfl
      | some rB =>
        rw [hA, hB] at hf
        simp at hf
    | some rA =>
      cases hB : layoutForest dx' sep' (some i) (d + 1) acc' ch with
      | none =>
        rw [hA, hB] at hf
        simp at hf
      | some rB =>
        rw [hA, hB] at hf
        simp only [Option.map_some', Option.some.injEq] at hf
        obtain ⟨ms, fX, lX, acc2⟩ := rA
        obtain ⟨ms', fX', lX', acc2'⟩ := rB
        simp only [preShape, List.map_cons] at hf ⊢
        rw [hf]
theorem layoutForest_shape (dx dx' : ℚ) (sep sep' : Separation)
    (pid pid' : Option Nat) (d : Nat) (acc acc' : Option (Option Nat × ℚ))
    (ns : List TNode) :
    (layoutForest dx sep pid d acc ns).map (fun r => preShape r.1)
      = (layoutForest dx' sep' pid' d acc' ns).map (fun r => preShape r.1) := by
  match ns with
  | [] => rfl
  | n :: rest =>
    have hn := layoutNode_shape dx dx' sep sep' pid pid' d acc acc' n
    have hrest := layoutForest_shape dx dx' sep sep' pid pid' d
      (layoutNode dx sep pid d acc n).2.2 (layoutNode dx' sep' pid' d acc' n).2.2 rest
    simp only [layoutForest]
    cases hA : layoutForest dx sep pid d (layoutNode dx sep pid d acc n).2.2 rest with
    | none =>
      cases hB : layoutForest dx' sep' pid' d (layoutNode dx' sep' pid' d acc' n).2.2
          rest with
      | none =>
        simp only [Option.map_some', Option.some.injEq]
        exact hn
      | some rB =>
        rw [hA, hB] at hrest
        simp at hrest
    | some rA =>
      cases hB : layoutForest dx' sep' pid' d (layoutNode dx' sep' pid' d acc' n).2.2
          rest with
      | none =>
        rw [hA, hB] at hrest
        simp at hrest
      | some rB =>
        rw [hA, hB] at hrest
        simp only [Option.map_some', Option.some.injEq] at hrest
        obtain ⟨ms, fX, lX, acc2⟩ := rA
        obtain ⟨ms', fX', lX', acc2'⟩ := rB
        simp only [Option.map_some', Option.some.injEq, preShape, List.map_append]
          at hrest ⊢
        rw [show (ms.map fun p => (p.nodeId, p.depth))
              = preShape ms from rfl] at hrest ⊢
        rw [show (ms'.map fun p => (p.nodeId, p.depth))
              = preShape ms' from rfl] at hrest
        rw [hrest]
        rw [show ((layoutNode dx sep pid d acc n).1.map fun p => (p.nodeId, p.depth))
              = preShape (layoutNode dx sep pid d acc n).1 from rfl]
        rw [show ((layoutNode dx' sep' pid' d acc' n).1.map fun p => (p.nodeId, p.depth))
              = preShape (layoutNode dx' sep' pid' d acc' n).1 from rfl]
        rw [hn]
        rfl
end

theorem preDepths_eq_of_preShape {a b : List PreNode} (h : preShape a = preShape b) :
    preDepths a = preDepths b := by
  have h2 := congrArg (List.map Prod.snd) h
  simpa [preShape, preDepths, List.map_map, Function.comp] using h2

theorem genDepths_cons (props : TreeProps) (b : Bool) (root : TNode)
    (rest : List TNode) :
    genDepths props b (root :: rest)
      = preDepths (layoutNode (dxOf props) props.separation none 0 none root).1 := by
  simp only [genDepths, genNodes, generateTree, d3TreeNodes, preDepths, List.map_map]
  rfl

/-- C7 as amended: for identical data and configuration the two orientations
always produce the same depth list (the visible traversal does not depend on
the node-size pair), and they produce identical (depth, off-axis position)
pairs exactly when the two node-size components coincide (as in the
140 x 140 default); in general the off-axis spacing handed to the layout is
`nodeSize.y` in horizontal and `nodeSize.x` in vertical orientation, so the
pair sets differ as soon as the two components do. -/
theorem orientation_swap_spec (props : TreeProps) (initialRender : Bool)
    (data : List TNode) :
    genDepths {props with orientation := Orientation.horizontal} initialRender data
      = genDepths {props with orientation := Orientation.vertical} initialRender data
    ∧ (props.nodeSize.x = props.nodeSize.y →
        genPairs {props with orientation := Orientation.horizontal} initialRender data
          = genPairs {props with orientation := Orientation.vertical} initialRender
            data) := by
  constructor
  · match data with
    | [] => rfl
    | root :: rest =>
      rw [genDepths_cons, genDepths_cons]
      exact preDepths_eq_of_preShape
        (layoutNode_shape _ _ _ _ none none 0 none none root)
  · intro h
    have h1 : dxOf {props with orientation := Orientation.horizontal}
        = dxOf {props with orientation := Orientation.vertical} := by
      simp [dxOf, h]
    have h2 : dyOf {props with orientation := Orientation.horizontal}
        = dyOf {props with orientation := Orientation.vertical} := by
      simp [dyOf, h]
    match data with
    | [] => rfl
    | root :: rest =>
      simp only [genPairs, genNodes, generateTree, d3TreeNodes]
      rw [h1, h2]

/-- A root with two leaf children (identifiers 0, 1, 2), fully expanded. -/
def pairExample : List TNode := [.mk 0 false [.mk 1 false [], .mk 2 false []]]

/-- Horizontal props with unequal node-size components (x = 1, y = 2). -/
def propsRectH : TreeProps := ⟨.horizontal, ⟨1, 2⟩, ⟨1, 2⟩, none, none⟩

/-- The same props in vertical orientation. -/
def propsRectV : TreeProps := ⟨.vertical, ⟨1, 2⟩, ⟨1, 2⟩, none, none⟩

/-- Counterexample to C7 as stated: with `nodeSize = (x: 1, y: 2)` the
horizontal pass places the second child at off-axis position 1 (spacing
`nodeSize.y = 2`, root-centred), a pair no node of the vertical pass attains
(its spacing is `nodeSize.x = 1`, giving off-axis positions -1/2 and 1/2),
so the (depth, off-axis position) sets of the two orientations differ. -/
theorem orientation_swap_counterexample :
    (1, (1 : ℚ)) ∈ genPairs propsRectH true pairExample
    ∧ (1, (1 : ℚ)) ∉ genPairs propsRectV true pairExample := by
  have hH : genPairs propsRectH true pairExample = [(0, 0), (1, -1), (1, 1)] := by
    norm_num [genPairs, genNodes, generateTree, d3TreeNodes, layoutNode, layoutForest,
      leafX, separationValue, pairExample, propsRectH, dxOf, dyOf, TNode.id,
      TNode.collapsed, TNode.children]
  have hV : genPairs propsRectV true pairExample
      = [(0, 0), (1, -1/2), (1, 1/2)] := by
    norm_num [genPairs, genNodes, generateTree, d3TreeNodes, layoutNode, layoutForest,
      leafX, separationValue, pairExample, propsRectV, dxOf, dyOf, TNode.id,
      TNode.collapsed, TNode.children]
  rw [hH, hV]
  constructor
  · norm_num
  · intro hmem
    simp only [List.mem_cons, List.not_mem_nil, or_false, Prod.mk.injEq] at hmem
    rcases hmem with ⟨h1, h2⟩ | ⟨h1, h2⟩ | ⟨h1, h2⟩
    · exact absurd h1 (by norm_num)
    · exact absurd h2 (by norm_num)
    · exact absurd h2 (by norm_num)

/-- Square default-size props (140 x 140), horizontal. -/
def propsSquare : TreeProps := ⟨.horizontal, ⟨140, 140⟩, ⟨1, 2⟩, none, none⟩

/-- Witness for the amended C7 at a concrete input: with the square default
node size the two orientations agree on the full (depth, off-axis position)
pair list. -/
theorem orientation_swap_spec_witness :
    genPairs {propsSquare with orientation := Orientation.horizontal} true pairExample
      = genPairs {propsSquare with orientation := Orientation.vertical} true
        pairExample :=
  (orientation_swap_spec propsSquare true pairExample).2 rfl

theorem layoutNode_leaf (dx : ℚ) (sep : Separation) (pid : Option Nat) (d : Nat)
    (acc : Option (Option Nat × ℚ)) (n : TNode) (h : visibleChildren n = []) :
    layoutNode dx sep pid d acc n
      = ([⟨n.id, d, leafX dx sep pid acc⟩], leafX dx sep pid acc,
          some (pid, leafX dx sep pid acc)) := by
  match n with
  | .mk i true ch => rfl
  | .mk i false ch =>
    have hch : ch = [] := by
      simpa [visibleChildren, TNode.collapsed, TNode.children] using h
    subst hch
    rfl

/-- C8 (settled against the spec-modelled layout): a visible leaf placed
directly after a leaf of the same parent sits exactly
`dx * separation.siblings` further along the off-axis, while placed after a
leaf of a different parent it sits `dx * separation.nonSiblings` further —
a strictly larger delta whenever `siblings < nonSiblings` (the shipped
defaults are 1 and 2) and the off-axis node size is positive; the separation
callback itself returns `siblings` exactly when the two parent identifiers
coincide and `nonSiblings` otherwise; and a laid-out visible leaf always
leaves the record `some (parent, position)` in the accumulator, so the next
leaf is indeed separated against it. -/
theorem separation_spec (dx : ℚ) (sep : Separation) (pid pid2 : Option Nat)
    (d : Nat) (xu : ℚ) (v : TNode) (hv : visibleChildren v = [])
    (hdx : 0 < dx) (hlt : sep.siblings < sep.nonSiblings) (hne : pid2 ≠ pid) :
    (layoutNode dx sep pid d (some (pid, xu)) v).2.1 = xu + dx * sep.siblings
    ∧ (layoutNode dx sep pid2 d (some (pid, xu)) v).2.1 = xu + dx * sep.nonSiblings
    ∧ xu + dx * sep.siblings < xu + dx * sep.nonSiblings
    ∧ separationValue sep pid pid = sep.siblings
    ∧ separationValue sep pid2 pid = sep.nonSiblings
    ∧ (∀ (acc : Option (Option Nat × ℚ)) (u : TNode), visibleChildren u = [] →
        (layoutNode dx sep pid d acc u).2.2
          = some (pid, (layoutNode dx sep pid d acc u).2.1)) := by
  refine ⟨?_, ?_, ?_, ?_, ?_, ?_⟩
  · rw [layoutNode_leaf dx sep pid d (some (pid, xu)) v hv]
    simp [leafX, separationValue]
  · rw [layoutNode_leaf dx sep pid2 d (some (pid, xu)) v hv]
    simp [leafX, separationValue, hne]
  · have := mul_lt_mul_of_pos_left hlt hdx
    linarith
  · simp [separationValue]
  · simp [separationValue, hne]
  · intro acc u hu
    rw [layoutNode_leaf dx sep pid d acc u hu]

/-- Witness for C8 at the shipped defaults (`nodeSize` off-axis component
140, separation factors 1 and 2): a leaf following a same-parent leaf at
position 0 lands at 140 * 1, one following a different-parent leaf lands at
140 * 2. -/
theorem separation_spec_witness :
    (layoutNode 140 ⟨1, 2⟩ (some 0) 1 (some (some 0, 0))
        (TNode.mk 2 false [])).2.1 = 0 + 140 * 1
    ∧ (layoutNode 140 ⟨1, 2⟩ (some 5) 1 (some (some 0, 0))
        (TNode.mk 2 false [])).2.1 = 0 + 140 * 2 :=
  ⟨(separation_spec 140 ⟨1, 2⟩ (some 0) (some 5) 1 0 (TNode.mk 2 false []) rfl
      (by norm_num) (by norm_num) (by decide)).1,
   (separation_spec 140 ⟨1, 2⟩ (some 0) (some 5) 1 0 (TNode.mk 2 false []) rfl
      (by norm_num) (by norm_num) (by decide)).2.1⟩

end ReactD3Tree
